import Mathlib

/-!
Verification of the DPLL SAT solver in `sattools/solvers.py`.

A formula is a list of clauses; a clause is a list of integer literals
(`v` and `-v` denote opposite polarities of variable `|v|`).  The solver
class keeps Python sets of literals, modelled here as `Finset Int`.

Two aspects of the Python code are nondeterministic and are therefore
modelled as explicit parameters:

* `simplify` iterates over a Python set (`for literal in remove_literals:`),
  whose iteration order is unspecified.  The parameter
  `sord : Finset Int → List Int` supplies that order; `ValidOrd sord` states
  that `sord s` enumerates exactly the elements of `s` without repetition,
  which is what iterating over a Python set does.

* `backtrack` picks a branching literal with `np.random.choice`.  The
  parameter `pick : Nat → Finset Int → Int` supplies the choice; its first
  argument is the value of the solver's `recursion_count` at the moment of
  the draw, so distinct draws of a run use distinct indices and every
  sequence of random draws is representable.  `ValidPick pick` states that
  the choice lands inside the (nonempty) candidate set, which is what
  `np.random.choice` guarantees.

Recursion is modelled with explicit fuel: a result `none` means the fuel was
exhausted before the call chain reached a terminal check, `some none` means
the call returned `False` (unsatisfiable), `some (some a)` means it returned
`True` with recorded solution `a`.
-/

namespace Sattools

abbrev Clause := List Int

abbrev CNF := List Clause

/-- Modelled from the spec: `flatten_list` lives in the repository's
`sattools/utils.py`, which is not part of the sources here; per the spec's
data model it flattens a formula into the list of all its literal
occurrences. -/
def flatten_list (cnf : CNF) : List Int :=
  cnf.flatten

/-- `Solver.determine_literals`: the set of all unique literals of the cnf. -/
def determine_literals (cnf : CNF) : Finset Int :=
  (flatten_list cnf).toFinset

/-- `Solver.determine_pure_literals`: literals whose negation is absent. -/
def determine_pure_literals (cnf : CNF) : Finset Int :=
  (determine_literals cnf).filter (fun ul => -ul ∉ determine_literals cnf)

/-- `Solver.determine_unit_clauses`: literals of clauses of length 1. -/
def determine_unit_clauses (cnf : CNF) : Finset Int :=
  (flatten_list (cnf.filter (fun c => c.length = 1))).toFinset

/-- `Solver.remove_clauses_with_literal`: drop clauses containing `literal`. -/
def remove_clauses_with_literal (cnf : CNF) (literal : Int) : CNF :=
  cnf.filter (fun clause => literal ∉ clause)

/-- `Solver.shorten_clauses_with_literal`: delete `literal` from every clause. -/
def shorten_clauses_with_literal (cnf : CNF) (literal : Int) : CNF :=
  cnf.map (fun clause => clause.filter (fun c => c ≠ literal))

/-- `Solver.remove_literal`: drop clauses with `literal`, shorten clauses with
`-literal`. -/
def remove_literal (cnf : CNF) (literal : Int) : CNF :=
  shorten_clauses_with_literal (remove_clauses_with_literal cnf literal) (-literal)

/-- `remove_literal` as the spec words it: drop every clause that contains
`l`, then delete `-l` from every remaining clause, preserving the order of
everything else. -/
def remove_literal_spec (cnf : CNF) (l : Int) : CNF :=
  (cnf.filter (fun clause => l ∉ clause)).map (fun clause => clause.filter (fun c => c ≠ -l))

/-- `Solver.simplify`: remove unit clauses and pure literals, returning the new
cnf and the set of removed literals.  `sord` gives the iteration order of the
Python set `remove_literals`. -/
def simplify (sord : Finset Int → List Int) (cnf : CNF) : CNF × Finset Int :=
  (List.foldl remove_literal cnf
      (sord (determine_unit_clauses cnf ∪ determine_pure_literals cnf)),
    determine_unit_clauses cnf ∪ determine_pure_literals cnf)

/-- `DPLL.backtrack`.  Arguments: fuel (bound on the nesting depth of calls),
the entry value `n` of `recursion_count`, the cnf and the partial assignment.
Returns the result (see the header comment) together with the exit value of
`recursion_count`. -/
def backtrack (pick : Nat → Finset Int → Int) (sord : Finset Int → List Int)
    (lits0 : Finset Int) :
    Nat → Nat → CNF → Finset Int → Option (Option (Finset Int)) × Nat
  | 0, n, _, _ => (none, n)
  | fuel + 1, n, cnf, pa =>
    let p := simplify sord cnf
    let pa1 := pa ∪ p.2
    if p.1 = [] then (some (some pa1), n + 1)
    else if [] ∈ p.1 then (some none, n + 1)
    else
      let l := pick (n + 1) (lits0 \ pa1)
      match backtrack pick sord lits0 fuel (n + 1)
          (remove_literal p.1 (-l)) (pa1 ∪ {-l}) with
      | (some (some sol), n2) => (some (some sol), n2)
      | (some none, n2) =>
          backtrack pick sord lits0 fuel n2 (remove_literal p.1 l) (pa1 ∪ {l})
      | (none, n2) => (none, n2)

/-- `DPLL.start`: run `backtrack` on the stored cnf with an empty partial
assignment; `self.literals` is fixed from the original cnf. -/
def start (pick : Nat → Finset Int → Int) (sord : Finset Int → List Int)
    (cnf : CNF) (fuel : Nat) : Option (Option (Finset Int)) × Nat :=
  backtrack pick sord (determine_literals cnf) fuel 0 cnf ∅

/-- `Solver.solve`: the reported satisfiability flag together with the
recorded solution (`[]`, i.e. `∅`, when unsatisfiable). -/
def solve (pick : Nat → Finset Int → Int) (sord : Finset Int → List Int)
    (cnf : CNF) (fuel : Nat) : Option (Bool × Finset Int) :=
  match start pick sord cnf fuel with
  | (some (some sol), _) => some (true, sol)
  | (some none, _) => some (false, ∅)
  | (none, _) => none

/-- `DPLL.backtrack`, instrumented to also return the list of the
`partial_assignment` arguments of every call made (the entry state of each
invocation, in the order top call, first branch subtree, second branch
subtree).  The computed result is the same as `backtrack`. -/
def backtrack_trace (pick : Nat → Finset Int → Int) (sord : Finset Int → List Int)
    (lits0 : Finset Int) :
    Nat → Nat → CNF → Finset Int →
      (Option (Option (Finset Int)) × Nat) × List (Finset Int)
  | 0, n, _, pa => ((none, n), [pa])
  | fuel + 1, n, cnf, pa =>
    let p := simplify sord cnf
    let pa1 := pa ∪ p.2
    if p.1 = [] then ((some (some pa1), n + 1), [pa])
    else if [] ∈ p.1 then ((some none, n + 1), [pa])
    else
      let l := pick (n + 1) (lits0 \ pa1)
      match backtrack_trace pick sord lits0 fuel (n + 1)
          (remove_literal p.1 (-l)) (pa1 ∪ {-l}) with
      | ((some (some sol), n2), t1) => ((some (some sol), n2), pa :: t1)
      | ((some none, n2), t1) =>
          let r2 := backtrack_trace pick sord lits0 fuel n2 (remove_literal p.1 l) (pa1 ∪ {l})
          (r2.1, pa :: (t1 ++ r2.2))
      | ((none, n2), t1) => ((none, n2), pa :: t1)

/-- The set of variables (absolute values of literals) of a formula: the
Variable Universe of the spec. -/
def vars_of (cnf : CNF) : Finset Nat :=
  (determine_literals cnf).image Int.natAbs

/-- An assignment `a` satisfies a formula when every clause contains a literal
of `a`. -/
def satisfies (a : Finset Int) (cnf : CNF) : Prop :=
  ∀ c ∈ cnf, ∃ l ∈ c, l ∈ a

instance (a : Finset Int) (cnf : CNF) : Decidable (satisfies a cnf) := by
  unfold satisfies; infer_instance

/-- An assignment over the Variable Universe of `cnf`: it mentions only
variables of the universe and chooses exactly one polarity for each. -/
def assignment_over (cnf : CNF) (a : Finset Int) : Prop :=
  (∀ l ∈ a, l.natAbs ∈ vars_of cnf) ∧
    ∀ v ∈ vars_of cnf,
      (((v : Int) ∈ a) ∨ ((-(v : Int)) ∈ a)) ∧ ¬(((v : Int) ∈ a) ∧ ((-(v : Int)) ∈ a))

instance (cnf : CNF) (a : Finset Int) : Decidable (assignment_over cnf a) := by
  unfold assignment_over
  infer_instance

def SatC (lits0 : Finset Int) (cnf : CNF) : Prop :=
  ∃ a : Finset Int, (∀ l ∈ a, -l ∉ a) ∧ (∀ m ∈ lits0, m ∈ a ∨ -m ∈ a) ∧ satisfies a cnf

/-- `sord` is a possible iteration order of Python sets: it enumerates exactly
the elements of each set, without repetition. -/
def ValidOrd (sord : Finset Int → List Int) : Prop :=
  ∀ s : Finset Int, (sord s).Nodup ∧ ∀ l : Int, l ∈ sord s ↔ l ∈ s

/-- `pick` is a possible behaviour of `np.random.choice`: on a nonempty
candidate set it returns one of the candidates. -/
def ValidPick (pick : Nat → Finset Int → Int) : Prop :=
  ∀ n : Nat, ∀ s : Finset Int, s.Nonempty → pick n s ∈ s

/-- A concrete iteration order (ascending) used to instantiate theorems with
hypotheses on `sord`. -/
def sordDefault (s : Finset Int) : List Int :=
  Quot.liftOn s.val (fun l => l.insertionSort (· ≤ ·)) fun l₁ l₂ h =>
    List.eq_of_perm_of_sorted
      ((List.perm_insertionSort _ l₁).trans (h.trans (List.perm_insertionSort _ l₂).symm))
      (List.sorted_insertionSort _ l₁) (List.sorted_insertionSort _ l₂)

/-- A trivial choice function, used for runs that never branch. -/
def pick_const (_ : Nat) (_ : Finset Int) : Int := 0

/-- A realizable choice function: picks the least candidate. -/
def pickMin (_ : Nat) (s : Finset Int) : Int :=
  if h : s.Nonempty then s.min' h else 0

/-- Over-approximation of the states `DPLL.backtrack` passes to nested calls,
starting from the initial call on `f`: `step` covers both the `-l` and the `l`
child for an arbitrary branch literal, so every state reachable in a run is
reachable here. -/
inductive Reach (sord : Finset Int → List Int) (f : CNF) : CNF → Finset Int → Prop where
  | init : Reach sord f f ∅
  | step (cnf : CNF) (pa : Finset Int) (lit : Int) (h : Reach sord f cnf pa) :
      Reach sord f (remove_literal (simplify sord cnf).1 lit)
        ((pa ∪ (simplify sord cnf).2) ∪ {lit})

/-- The formula of §8 scenario 5-like shape used to exhibit the stale-literal
branching: after the unit `-1` and the pure `4` are forced, literal `1` is
still a branching candidate. -/
def f4cnf : CNF := [[-1], [1, 4], [2, 3], [-2, -3], [2, -3], [-2, 3]]

/-- A realizable sequence of random draws: the draw of the top-level call
(recursion count 1) picks the stale literal `1`; later draws pick `2`. -/
def pick4 (n : Nat) (s : Finset Int) : Int :=
  if n = 1 then 1 else if (2 : Int) ∈ s then 2 else if (3 : Int) ∈ s then 3 else 0

/-- A realizable sequence of random draws that always picks the stale literal
`1` whenever it is a candidate. -/
def pick5 (_ : Nat) (s : Finset Int) : Int :=
  if (1 : Int) ∈ s then 1 else 0

theorem sordDefault_perm (s : Finset Int) : ∀ l : List Int, s.val = (l : Multiset Int) →
    (sordDefault s).Perm l := by
  intro l hl
  have : sordDefault s = l.insertionSort (· ≤ ·) := by
    simp only [sordDefault, hl]
    rfl
  rw [this]
  exact List.perm_insertionSort _ l

theorem sordDefault_valid : ValidOrd sordDefault := by
  intro s
  rcases s with ⟨m, hm⟩
  induction m using Quot.inductionOn with
  | h l =>
    have hp : (sordDefault ⟨Quot.mk _ l, hm⟩).Perm l := sordDefault_perm _ l rfl
    constructor
    · exact hp.nodup_iff.mpr hm
    · intro x
      rw [hp.mem_iff]
      rfl

theorem pickMin_valid : ValidPick pickMin := by
  intro n s hs
  simp only [pickMin, dif_pos hs]
  exact s.min'_mem hs

theorem mem_determine_literals {cnf : CNF} {m : Int} :
    m ∈ determine_literals cnf ↔ ∃ c ∈ cnf, m ∈ c := by
  simp [determine_literals, flatten_list]

theorem mem_remove_literal {cnf : CNF} {l : Int} {c : Clause} :
    c ∈ remove_literal cnf l ↔
      ∃ c0 ∈ cnf, l ∉ c0 ∧ c = c0.filter (fun x => x ≠ -l) := by
  simp only [remove_literal, shorten_clauses_with_literal, remove_clauses_with_literal,
    List.mem_map, List.mem_filter, decide_eq_true_eq]
  constructor
  · rintro ⟨c0, ⟨hc0, hl⟩, rfl⟩
    exact ⟨c0, hc0, hl, rfl⟩
  · rintro ⟨c0, hc0, hl, rfl⟩
    exact ⟨c0, ⟨hc0, hl⟩, rfl⟩

theorem determine_literals_remove_subset (cnf : CNF) (l : Int) :
    determine_literals (remove_literal cnf l) ⊆ determine_literals cnf := by
  intro m hm
  rw [mem_determine_literals] at hm ⊢
  rcases hm with ⟨c, hc, hmc⟩
  rcases mem_remove_literal.mp hc with ⟨c0, hc0, _, rfl⟩
  exact ⟨c0, hc0, (List.mem_filter.mp hmc).1⟩

theorem not_mem_lits_remove {cnf : CNF} {l m : Int} (hm : m = l ∨ m = -l) :
    m ∉ determine_literals (remove_literal cnf l) := by
  intro hmem
  rw [mem_determine_literals] at hmem
  rcases hmem with ⟨c, hc, hmc⟩
  rcases mem_remove_literal.mp hc with ⟨c0, _, hl, rfl⟩
  rcases List.mem_filter.mp hmc with ⟨hmc0, hne⟩
  simp only [decide_eq_true_eq] at hne
  rcases hm with rfl | rfl
  · exact hl hmc0
  · exact hne rfl

theorem foldl_lits_subset : ∀ (L : List Int) (cnf : CNF),
    determine_literals (List.foldl remove_literal cnf L) ⊆ determine_literals cnf
  | [], _ => fun _ h => h
  | a :: L, cnf =>
    (foldl_lits_subset L (remove_literal cnf a)).trans (determine_literals_remove_subset cnf a)

theorem foldl_kills : ∀ (L : List Int) (cnf : CNF) (l : Int), l ∈ L →
    ∀ m, m = l ∨ m = -l → m ∉ determine_literals (List.foldl remove_literal cnf L) := by
  intro L
  induction L with
  | nil => intro cnf l hl; cases hl
  | cons a L ih =>
    intro cnf l hl m hm
    rcases List.mem_cons.mp hl with rfl | hl
    · intro hmem
      exact not_mem_lits_remove hm (foldl_lits_subset L _ hmem)
    · exact ih (remove_literal cnf a) l hl m hm

theorem unit_clause_mem_cnf {cnf : CNF} {l : Int} (h : l ∈ determine_unit_clauses cnf) :
    [l] ∈ cnf := by
  simp only [determine_unit_clauses, flatten_list, List.mem_toFinset, List.mem_flatten] at h
  rcases h with ⟨c, hc, hlc⟩
  rcases List.mem_filter.mp hc with ⟨hccnf, hlen⟩
  simp only [decide_eq_true_eq] at hlen
  rcases List.length_eq_one.mp hlen with ⟨b, rfl⟩
  rcases List.mem_singleton.mp hlc with rfl
  exact hccnf

theorem pure_not_neg {cnf : CNF} {l : Int} (h : l ∈ determine_pure_literals cnf) :
    -l ∉ determine_literals cnf :=
  (Finset.mem_filter.mp h).2

theorem forced_subset_lits (cnf : CNF) :
    determine_unit_clauses cnf ∪ determine_pure_literals cnf ⊆ determine_literals cnf := by
  intro m hm
  rcases Finset.mem_union.mp hm with h | h
  · exact mem_determine_literals.mpr ⟨[m], unit_clause_mem_cnf h, List.mem_singleton_self m⟩
  · exact (Finset.mem_filter.mp h).1

theorem remove_literal_eq_self {cnf : CNF} {l : Int}
    (h1 : l ∉ determine_literals cnf) (h2 : -l ∉ determine_literals cnf) :
    remove_literal cnf l = cnf := by
  have hdrop : remove_clauses_with_literal cnf l = cnf := by
    unfold remove_clauses_with_literal
    apply List.filter_eq_self.mpr
    intro c hc
    simp only [decide_eq_true_eq]
    intro hlc
    exact h1 (mem_determine_literals.mpr ⟨c, hc, hlc⟩)
  have hmap : ∀ c ∈ cnf, c.filter (fun x => x ≠ -l) = c := by
    intro c hc
    apply List.filter_eq_self.mpr
    intro x hx
    simp only [decide_eq_true_eq]
    intro hxeq
    exact h2 (mem_determine_literals.mpr ⟨c, hc, hxeq ▸ hx⟩)
  rw [remove_literal, hdrop, shorten_clauses_with_literal]
  calc cnf.map (fun c => c.filter (fun x => x ≠ -l)) = cnf.map id := List.map_congr_left hmap
    _ = cnf := List.map_id cnf

theorem satisfies_of_remove {a : Finset Int} {cnf : CNF} {l : Int} (hl : l ∈ a)
    (h : satisfies a (remove_literal cnf l)) : satisfies a cnf := by
  intro c hc
  by_cases hlc : l ∈ c
  · exact ⟨l, hlc, hl⟩
  · have hmem : c.filter (fun x => x ≠ -l) ∈ remove_literal cnf l :=
      mem_remove_literal.mpr ⟨c, hc, hlc, rfl⟩
    rcases h _ hmem with ⟨m, hm, hma⟩
    exact ⟨m, (List.mem_filter.mp hm).1, hma⟩

theorem satisfies_foldl_rev {a : Finset Int} : ∀ (L : List Int) (cnf : CNF),
    (∀ l ∈ L, l ∈ a) → satisfies a (List.foldl remove_literal cnf L) → satisfies a cnf := by
  intro L
  induction L with
  | nil => intro cnf _ h; exact h
  | cons x L ih =>
    intro cnf hL h
    exact satisfies_of_remove (hL x (List.mem_cons_self x L))
      (ih _ (fun l hl => hL l (List.mem_cons_of_mem x hl)) h)

theorem satisfies_remove_of_mem {a : Finset Int} {cnf : CNF} {l : Int}
    (_hl : l ∈ a) (hnl : -l ∉ a) (h : satisfies a cnf) :
    satisfies a (remove_literal cnf l) := by
  intro c hc
  rcases mem_remove_literal.mp hc with ⟨c0, hc0, _, rfl⟩
  rcases h c0 hc0 with ⟨m, hm, hma⟩
  refine ⟨m, List.mem_filter.mpr ⟨hm, ?_⟩, hma⟩
  simp only [decide_eq_true_eq]
  rintro rfl
  exact hnl hma

theorem satisfies_remove_of_no_neg {a : Finset Int} {cnf : CNF} {l : Int}
    (hnl : -l ∉ determine_literals cnf) (h : satisfies a cnf) :
    satisfies a (remove_literal cnf l) := by
  intro c hc
  rcases mem_remove_literal.mp hc with ⟨c0, hc0, _, rfl⟩
  rcases h c0 hc0 with ⟨m, hm, hma⟩
  refine ⟨m, List.mem_filter.mpr ⟨hm, ?_⟩, hma⟩
  simp only [decide_eq_true_eq]
  rintro rfl
  exact hnl (mem_determine_literals.mpr ⟨c0, hc0, hm⟩)

theorem satisfies_foldl_preserve {a : Finset Int} (hcons : ∀ l ∈ a, -l ∉ a) (cnf0 : CNF) :
    ∀ (L : List Int) (cnf : CNF),
      (∀ l ∈ L, l ∈ a ∨ -l ∉ determine_literals cnf0) →
      determine_literals cnf ⊆ determine_literals cnf0 →
      satisfies a cnf → satisfies a (List.foldl remove_literal cnf L) := by
  intro L
  induction L with
  | nil => intro cnf _ _ h; exact h
  | cons x L ih =>
    intro cnf hL hsub h
    simp only [List.foldl_cons]
    apply ih
    · intro l hl; exact hL l (List.mem_cons_of_mem x hl)
    · exact (determine_literals_remove_subset cnf x).trans hsub
    · rcases hL x (List.mem_cons_self x L) with hx | hx
      · exact satisfies_remove_of_mem hx (hcons x hx) h
      · exact satisfies_remove_of_no_neg (fun hmem => hx (hsub hmem)) h

theorem backtrack_sound {pick : Nat → Finset Int → Int} {sord : Finset Int → List Int}
    {lits0 : Finset Int} (hsord : ∀ s : Finset Int, ∀ l ∈ sord s, l ∈ s) :
    ∀ (fuel n : Nat) (cnf : CNF) (pa sol : Finset Int) (n2 : Nat),
      backtrack pick sord lits0 fuel n cnf pa = (some (some sol), n2) →
      pa ⊆ sol ∧ satisfies sol cnf := by
  intro fuel
  induction fuel with
  | zero =>
    intro n cnf pa sol n2 h
    simp [backtrack] at h
  | succ fuel ih =>
    intro n cnf pa sol n2 h
    have hlift : ∀ s : Finset Int, pa ∪ (simplify sord cnf).2 ⊆ s →
        satisfies s (simplify sord cnf).1 → satisfies s cnf := by
      intro s hs hsat
      exact satisfies_foldl_rev
        (sord (determine_unit_clauses cnf ∪ determine_pure_literals cnf)) cnf
        (fun l' hl' => hs (Finset.mem_union_right pa (hsord _ l' hl'))) hsat
    simp only [backtrack] at h
    split at h
    · next h1 =>
      simp only [Prod.mk.injEq, Option.some.injEq] at h
      rcases h with ⟨rfl, _⟩
      refine ⟨Finset.subset_union_left, hlift _ (le_refl _) ?_⟩
      rw [h1]
      intro c hc
      exact absurd hc (List.not_mem_nil c)
    · next h1 =>
      split at h
      · next h2 =>
        simp at h
      · next h2 =>
        split at h
        · next solA nA heq =>
          simp only [Prod.mk.injEq, Option.some.injEq] at h
          obtain ⟨hsub, hsat⟩ := ih _ _ _ _ _ heq
          rw [h.1] at hsub hsat
          have hpa1 : pa ∪ (simplify sord cnf).2 ⊆ sol :=
            le_trans Finset.subset_union_left hsub
          have hls : -(pick (n + 1) (lits0 \ (pa ∪ (simplify sord cnf).2))) ∈ sol :=
            hsub (Finset.mem_union_right _ (Finset.mem_singleton_self _))
          exact ⟨le_trans Finset.subset_union_left hpa1,
            hlift sol hpa1 (satisfies_of_remove hls hsat)⟩
        · next nA heq =>
          obtain ⟨hsub, hsat⟩ := ih _ _ _ _ _ h
          have hpa1 : pa ∪ (simplify sord cnf).2 ⊆ sol :=
            le_trans Finset.subset_union_left hsub
          have hls : (pick (n + 1) (lits0 \ (pa ∪ (simplify sord cnf).2))) ∈ sol :=
            hsub (Finset.mem_union_right _ (Finset.mem_singleton_self _))
          exact ⟨le_trans Finset.subset_union_left hpa1,
            hlift sol hpa1 (satisfies_of_remove hls hsat)⟩
        · next nA heq =>
          simp at h

theorem backtrack_complete {pick : Nat → Finset Int → Int} {sord : Finset Int → List Int}
    {lits0 : Finset Int} (hsord : ∀ s : Finset Int, ∀ l ∈ sord s, l ∈ s) :
    ∀ (fuel n : Nat) (cnf : CNF) (pa : Finset Int) (n2 : Nat),
      determine_literals cnf ⊆ lits0 →
      backtrack pick sord lits0 fuel n cnf pa = (some none, n2) →
      ∀ a : Finset Int, (∀ l ∈ a, -l ∉ a) → (∀ m ∈ lits0, m ∈ a ∨ -m ∈ a) →
        satisfies a cnf → False := by
  intro fuel
  induction fuel with
  | zero =>
    intro n cnf pa n2 _ h
    simp [backtrack] at h
  | succ fuel ih =>
    intro n cnf pa n2 hlit h a hcons htot hsat
    have hsat1 : satisfies a (simplify sord cnf).1 := by
      apply satisfies_foldl_preserve hcons cnf _ cnf ?_ (fun _ hx => hx) hsat
      intro l hl
      rcases Finset.mem_union.mp (hsord _ l hl) with hu | hp
      · rcases hsat [l] (unit_clause_mem_cnf hu) with ⟨m, hm, hma⟩
        rcases List.mem_singleton.mp hm with rfl
        exact Or.inl hma
      · exact Or.inr (pure_not_neg hp)
    have hsub1 : determine_literals (simplify sord cnf).1 ⊆ lits0 :=
      (foldl_lits_subset _ _).trans hlit
    simp only [backtrack] at h
    split at h
    · next h1 =>
      simp at h
    · next h1 =>
      split at h
      · next h2 =>
        rcases hsat1 [] h2 with ⟨m, hm, _⟩
        exact absurd hm (List.not_mem_nil m)
      · next h2 =>
        split at h
        · next solA nA heq =>
          simp at h
        · next nA heq =>
          by_cases hIn : -(pick (n + 1) (lits0 \ (pa ∪ (simplify sord cnf).2))) ∈ a
          · exact ih _ _ _ _ ((determine_literals_remove_subset _ _).trans hsub1) heq a hcons
              htot (satisfies_remove_of_mem hIn (hcons _ hIn) hsat1)
          · by_cases hIn2 : pick (n + 1) (lits0 \ (pa ∪ (simplify sord cnf).2)) ∈ a
            · exact ih _ _ _ _ ((determine_literals_remove_subset _ _).trans hsub1) h a hcons
                htot (satisfies_remove_of_mem hIn2 (hcons _ hIn2) hsat1)
            · have hl1 : pick (n + 1) (lits0 \ (pa ∪ (simplify sord cnf).2)) ∉
                  determine_literals (simplify sord cnf).1 := by
                intro hmem
                rcases htot _ (hsub1 hmem) with h' | h'
                · exact hIn2 h'
                · exact hIn h'
              refine ih _ _ _ _ ((determine_literals_remove_subset _ _).trans hsub1) heq a hcons
                htot (satisfies_remove_of_no_neg ?_ hsat1)
              rw [neg_neg]
              exact hl1
        · next nA heq =>
          simp at h

theorem SatC_remove {lits0 : Finset Int} {cnf : CNF} {l : Int} (hl : l ≠ 0)
    (h : SatC lits0 (remove_literal cnf l)) : SatC lits0 cnf := by
  rcases h with ⟨a, hcons, htot, hsat⟩
  refine ⟨insert l (a.erase (-l)), ?_, ?_, ?_⟩
  · intro m hm
    rcases Finset.mem_insert.mp hm with rfl | hm
    · intro hneg
      rcases Finset.mem_insert.mp hneg with h' | h'
      · exact hl (by omega)
      · exact (Finset.not_mem_erase _ _) h'
    · have hma : m ∈ a := Finset.mem_of_mem_erase hm
      have hmne : m ≠ -l := Finset.ne_of_mem_erase hm
      intro hneg
      rcases Finset.mem_insert.mp hneg with h' | h'
      · exact hmne (by omega)
      · exact hcons m hma (Finset.mem_of_mem_erase h')
  · intro m hmlits
    rcases htot m hmlits with hma | hma
    · by_cases hme : m = -l
      · subst hme
        right
        rw [neg_neg]
        exact Finset.mem_insert_self l _
      · exact Or.inl (Finset.mem_insert_of_mem (Finset.mem_erase.mpr ⟨hme, hma⟩))
    · by_cases hme : m = l
      · subst hme
        exact Or.inl (Finset.mem_insert_self m _)
      · refine Or.inr (Finset.mem_insert_of_mem (Finset.mem_erase.mpr ⟨?_, hma⟩))
        omega
  · intro c hc
    by_cases hlc : l ∈ c
    · exact ⟨l, hlc, Finset.mem_insert_self l _⟩
    · have hc' : c.filter (fun x => x ≠ -l) ∈ remove_literal cnf l :=
        mem_remove_literal.mpr ⟨c, hc, hlc, rfl⟩
      rcases hsat _ hc' with ⟨m, hm, hma⟩
      rcases List.mem_filter.mp hm with ⟨hmc, hmne⟩
      simp only [decide_eq_true_eq] at hmne
      exact ⟨m, hmc, Finset.mem_insert_of_mem (Finset.mem_erase.mpr ⟨hmne, hma⟩)⟩

theorem SatC_foldl {lits0 : Finset Int} : ∀ (L : List Int) (cnf : CNF),
    (∀ l ∈ L, l ≠ 0) → SatC lits0 (List.foldl remove_literal cnf L) → SatC lits0 cnf := by
  intro L
  induction L with
  | nil => intro cnf _ h; exact h
  | cons x L ih =>
    intro cnf hL h
    exact SatC_remove (hL x (List.mem_cons_self x L))
      (ih _ (fun l hl => hL l (List.mem_cons_of_mem x hl)) h)

theorem SatC_nil {lits0 : Finset Int} (h0 : (0 : Int) ∉ lits0) : SatC lits0 [] := by
  refine ⟨lits0.image (fun m => (m.natAbs : Int)), ?_, ?_, ?_⟩
  · intro l hl hneg
    rcases Finset.mem_image.mp hl with ⟨m, hm, rfl⟩
    rcases Finset.mem_image.mp hneg with ⟨m', hm', heq⟩
    have hm0 : m = 0 := by omega
    exact h0 (hm0 ▸ hm)
  · intro m hm
    rcases Int.natAbs_eq m with he | he
    · exact Or.inl (Finset.mem_image.mpr ⟨m, hm, he.symm⟩)
    · exact Or.inr (Finset.mem_image.mpr ⟨m, hm, by omega⟩)
  · intro c hc
    exact absurd hc (List.not_mem_nil c)

theorem backtrack_no_success {pick : Nat → Finset Int → Int} {sord : Finset Int → List Int}
    {lits0 : Finset Int} (hsord : ∀ s : Finset Int, ∀ l ∈ sord s, l ∈ s)
    (h0 : (0 : Int) ∉ lits0) :
    ∀ (fuel n : Nat) (cnf : CNF) (pa sol : Finset Int) (n2 : Nat),
      determine_literals cnf ⊆ lits0 → ¬ SatC lits0 cnf →
      backtrack pick sord lits0 fuel n cnf pa ≠ (some (some sol), n2) := by
  intro fuel
  induction fuel with
  | zero =>
    intro n cnf pa sol n2 _ _ h
    simp [backtrack] at h
  | succ fuel ih =>
    intro n cnf pa sol n2 hlit hunsat h
    have hzero : ∀ l ∈ sord (determine_unit_clauses cnf ∪ determine_pure_literals cnf),
        l ≠ 0 := by
      intro l hl hl0
      exact h0 (hl0 ▸ hlit (forced_subset_lits cnf (hsord _ l hl)))
    have hunsat1 : ¬ SatC lits0 (simplify sord cnf).1 := fun hs =>
      hunsat (SatC_foldl _ cnf hzero hs)
    have hsub1 : determine_literals (simplify sord cnf).1 ⊆ lits0 :=
      (foldl_lits_subset _ _).trans hlit
    simp only [backtrack] at h
    split at h
    · next h1 =>
      exact hunsat1 (h1 ▸ SatC_nil h0)
    · next h1 =>
      split at h
      · next h2 =>
        simp at h
      · next h2 =>
        have hchild : ∀ m : Int, ¬ SatC lits0 (remove_literal (simplify sord cnf).1 m) := by
          intro m hs
          by_cases hm : m = 0
          · subst hm
            have hz : (0 : Int) ∉ determine_literals (simplify sord cnf).1 := fun hc =>
              h0 (hsub1 hc)
            rw [remove_literal_eq_self hz (by rw [neg_zero]; exact hz)] at hs
            exact hunsat1 hs
          · exact hunsat1 (SatC_remove hm hs)
        split at h
        · next solA nA heq =>
          exact ih _ _ _ _ _ ((determine_literals_remove_subset _ _).trans hsub1) (hchild _) heq
        · next nA heq =>
          exact ih _ _ _ _ _ ((determine_literals_remove_subset _ _).trans hsub1) (hchild _) h
        · next nA heq =>
          simp at h

theorem empty_mem_remove {cnf : CNF} (l : Int) (h : [] ∈ cnf) : [] ∈ remove_literal cnf l :=
  mem_remove_literal.mpr ⟨[], h, List.not_mem_nil l, rfl⟩

theorem singleton_mem_remove {cnf : CNF} {x l : Int} (hmem : [x] ∈ cnf) (h1 : l ≠ x)
    (h2 : l ≠ -x) : [x] ∈ remove_literal cnf l := by
  refine mem_remove_literal.mpr ⟨[x], hmem, ?_, ?_⟩
  · intro hl
    rcases List.mem_singleton.mp hl with rfl
    exact h1 rfl
  · symm
    apply List.filter_eq_self.mpr
    intro b hb
    rcases List.mem_singleton.mp hb with rfl
    simp only [decide_eq_true_eq]
    intro hbe
    exact h2 (by omega)

theorem neg_singleton_to_empty {cnf : CNF} {x : Int} (hx : x ≠ 0) (hmem : [-x] ∈ cnf) :
    [] ∈ remove_literal cnf x := by
  refine mem_remove_literal.mpr ⟨[-x], hmem, ?_, ?_⟩
  · intro h
    rcases List.mem_singleton.mp h with h'
    exact hx (by omega)
  · simp

theorem foldl_conflict {x : Int} (hx : x ≠ 0) : ∀ (L : List Int) (cnf : CNF),
    (([x] ∈ cnf ∧ [-x] ∈ cnf ∧ x ∈ L ∧ -x ∈ L) ∨ [] ∈ cnf) →
    [] ∈ List.foldl remove_literal cnf L := by
  intro L
  induction L with
  | nil =>
    intro cnf h
    rcases h with ⟨_, _, hxL, _⟩ | h
    · cases hxL
    · exact h
  | cons r L ih =>
    intro cnf h
    simp only [List.foldl_cons]
    rcases h with ⟨hpos, hneg, hxL, hnxL⟩ | h
    · by_cases hrx : r = x
      · subst hrx
        exact ih _ (Or.inr (neg_singleton_to_empty hx hneg))
      · by_cases hrnx : r = -x
        · subst hrnx
          apply ih
          refine Or.inr (neg_singleton_to_empty (by omega) ?_)
          rw [neg_neg]
          exact hpos
        · apply ih
          left
          refine ⟨singleton_mem_remove hpos hrx hrnx,
            singleton_mem_remove hneg hrnx (by omega), ?_, ?_⟩
          · rcases List.mem_cons.mp hxL with h' | h'
            · exact absurd h'.symm hrx
            · exact h'
          · rcases List.mem_cons.mp hnxL with h' | h'
            · exact absurd h'.symm hrnx
            · exact h'
    · exact ih _ (Or.inr (empty_mem_remove r h))

theorem pa1_disjoint {sord : Finset Int → List Int} (hsord : ValidOrd sord) {cnf : CNF}
    {pa : Finset Int}
    (hdis : ∀ m ∈ pa, m ∉ determine_literals cnf ∧ -m ∉ determine_literals cnf) :
    ∀ m ∈ pa ∪ (simplify sord cnf).2,
      m ∉ determine_literals (simplify sord cnf).1 ∧
        -m ∉ determine_literals (simplify sord cnf).1 := by
  intro m hm
  rcases Finset.mem_union.mp hm with hm | hm
  · exact ⟨fun hc => (hdis m hm).1 (foldl_lits_subset _ _ hc),
      fun hc => (hdis m hm).2 (foldl_lits_subset _ _ hc)⟩
  · have hmem : m ∈ sord (determine_unit_clauses cnf ∪ determine_pure_literals cnf) :=
      ((hsord _).2 m).mpr hm
    exact ⟨foldl_kills _ _ _ hmem m (Or.inl rfl), foldl_kills _ _ _ hmem (-m) (Or.inr rfl)⟩

theorem pa1_consistent {sord : Finset Int → List Int} (hsord : ValidOrd sord)
    {lits0 : Finset Int} (h0 : (0 : Int) ∉ lits0) {cnf : CNF} {pa : Finset Int}
    (hlit : determine_literals cnf ⊆ lits0)
    (hcons : ∀ m ∈ pa, -m ∉ pa)
    (hdis : ∀ m ∈ pa, m ∉ determine_literals cnf ∧ -m ∉ determine_literals cnf)
    (hnoe : [] ∉ (simplify sord cnf).1) :
    ∀ m ∈ pa ∪ (simplify sord cnf).2, -m ∉ pa ∪ (simplify sord cnf).2 := by
  intro m hm hneg
  rcases Finset.mem_union.mp hm with hm' | hm' <;>
    rcases Finset.mem_union.mp hneg with hneg' | hneg'
  · exact hcons m hm' hneg'
  · exact (hdis m hm').2 (forced_subset_lits cnf hneg')
  · refine (hdis _ hneg').2 ?_
    rw [neg_neg]
    exact forced_subset_lits cnf hm'
  · rcases Finset.mem_union.mp hm' with hu | hp
    · rcases Finset.mem_union.mp hneg' with hu' | hp'
      · have hx : m ≠ 0 := fun he => h0 (he ▸ hlit (forced_subset_lits cnf hm'))
        exact hnoe (foldl_conflict hx _ cnf (Or.inl ⟨unit_clause_mem_cnf hu,
          unit_clause_mem_cnf hu', ((hsord _).2 m).mpr hm', ((hsord _).2 (-m)).mpr hneg'⟩))
      · have hnn := pure_not_neg hp'
        rw [neg_neg] at hnn
        exact hnn (forced_subset_lits cnf hm')
    · exact pure_not_neg hp (forced_subset_lits cnf hneg')

theorem backtrack_success_consistent {pick : Nat → Finset Int → Int}
    {sord : Finset Int → List Int} {lits0 : Finset Int}
    (hsord : ValidOrd sord) (hpick : ValidPick pick) (h0 : (0 : Int) ∉ lits0) :
    ∀ (fuel n : Nat) (cnf : CNF) (pa sol : Finset Int) (n2 : Nat),
      determine_literals cnf ⊆ lits0 →
      (∀ m ∈ pa, -m ∉ pa) →
      (∀ m ∈ pa, m ∉ determine_literals cnf ∧ -m ∉ determine_literals cnf) →
      backtrack pick sord lits0 fuel n cnf pa = (some (some sol), n2) →
      ∀ m ∈ sol, -m ∉ sol := by
  have hsordm : ∀ s : Finset Int, ∀ l ∈ sord s, l ∈ s := fun s l hl => ((hsord s).2 l).mp hl
  intro fuel
  induction fuel with
  | zero =>
    intro n cnf pa sol n2 _ _ _ h
    simp [backtrack] at h
  | succ fuel ih =>
    intro n cnf pa sol n2 hlit hcons hdis h
    have hsub1 : determine_literals (simplify sord cnf).1 ⊆ lits0 :=
      (foldl_lits_subset _ _).trans hlit
    simp only [backtrack] at h
    split at h
    · next h1 =>
      simp only [Prod.mk.injEq, Option.some.injEq] at h
      have hnoe : [] ∉ (simplify sord cnf).1 := by
        rw [h1]
        exact List.not_mem_nil []
      have hres := pa1_consistent hsord h0 hlit hcons hdis hnoe
      rw [h.1] at hres
      exact hres
    · next h1 =>
      split at h
      · next h2 =>
        simp at h
      · next h2 =>
        have hnoe : [] ∉ (simplify sord cnf).1 := h2
        have hdis1 := pa1_disjoint hsord hdis
        have hcons1 := pa1_consistent hsord h0 hlit hcons hdis hnoe
        have hne : (lits0 \ (pa ∪ (simplify sord cnf).2)).Nonempty := by
          rcases List.exists_mem_of_ne_nil _ h1 with ⟨c, hc⟩
          have hcne : c ≠ [] := fun he => hnoe (he ▸ hc)
          rcases List.exists_mem_of_ne_nil _ hcne with ⟨m, hmc⟩
          have hml : m ∈ determine_literals (simplify sord cnf).1 :=
            mem_determine_literals.mpr ⟨c, hc, hmc⟩
          exact ⟨m, Finset.mem_sdiff.mpr ⟨hsub1 hml, fun hmp => (hdis1 m hmp).1 hml⟩⟩
        obtain ⟨hpl, hpnp⟩ := Finset.mem_sdiff.mp (hpick _ _ hne)
        have hpne0 : pick (n + 1) (lits0 \ (pa ∪ (simplify sord cnf).2)) ≠ 0 :=
          fun he => h0 (he ▸ hpl)
        split at h
        · next solA nA heq =>
          simp only [Prod.mk.injEq, Option.some.injEq] at h
          have hres := ih _ _ _ _ _ ((determine_literals_remove_subset _ _).trans hsub1)
            ?_ ?_ heq
          · rw [h.1] at hres
            exact hres
          · intro m hm hneg
            rcases Finset.mem_union.mp hm with hm' | hm' <;>
              rcases Finset.mem_union.mp hneg with hneg' | hneg'
            · exact hcons1 m hm' hneg'
            · have h' := Finset.mem_singleton.mp hneg'
              have hml : m = pick (n + 1) (lits0 \ (pa ∪ (simplify sord cnf).2)) := by omega
              rw [hml] at hm'
              exact hpnp hm'
            · have h' := Finset.mem_singleton.mp hm'
              have hml : -m = pick (n + 1) (lits0 \ (pa ∪ (simplify sord cnf).2)) := by omega
              rw [hml] at hneg'
              exact hpnp hneg'
            · have h1' := Finset.mem_singleton.mp hm'
              have h2' := Finset.mem_singleton.mp hneg'
              exact hpne0 (by omega)
          · intro m hm
            rcases Finset.mem_union.mp hm with hm' | hm'
            · exact ⟨fun hc => (hdis1 m hm').1 (determine_literals_remove_subset _ _ hc),
                fun hc => (hdis1 m hm').2 (determine_literals_remove_subset _ _ hc)⟩
            · rcases Finset.mem_singleton.mp hm' with rfl
              exact ⟨not_mem_lits_remove (Or.inl rfl), not_mem_lits_remove (Or.inr rfl)⟩
        · next nA heq =>
          by_cases hstale : -pick (n + 1) (lits0 \ (pa ∪ (simplify sord cnf).2)) ∈
              pa ∪ (simplify sord cnf).2
          · -- the first branch re-ran the same state; its failure shows the simplified
            -- cnf cannot be satisfied, so the second branch cannot succeed
            have hd := hdis1 _ hstale
            have heqn : pa ∪ (simplify sord cnf).2 ∪
                {-pick (n + 1) (lits0 \ (pa ∪ (simplify sord cnf).2))} =
                pa ∪ (simplify sord cnf).2 :=
              Finset.union_eq_left.mpr (Finset.singleton_subset_iff.mpr hstale)
            have heqc : remove_literal (simplify sord cnf).1
                (-pick (n + 1) (lits0 \ (pa ∪ (simplify sord cnf).2))) =
                (simplify sord cnf).1 :=
              remove_literal_eq_self hd.1 hd.2
            rw [heqn, heqc] at heq
            have hunsat : ¬ SatC lits0 (simplify sord cnf).1 := by
              rintro ⟨a, hac, hat, has⟩
              exact backtrack_complete hsordm _ _ _ _ _ hsub1 heq a hac hat has
            have heqc2 : remove_literal (simplify sord cnf).1
                (pick (n + 1) (lits0 \ (pa ∪ (simplify sord cnf).2))) =
                (simplify sord cnf).1 := by
              apply remove_literal_eq_self
              · intro hc
                refine hd.2 ?_
                rw [neg_neg]
                exact hc
              · exact hd.1
            rw [heqc2] at h
            exact absurd h (backtrack_no_success hsordm h0 _ _ _ _ _ _ hsub1 hunsat)
          · -- fresh second branch
            refine ih _ _ _ _ _ ((determine_literals_remove_subset _ _).trans hsub1) ?_ ?_ h
            · intro m hm hneg
              rcases Finset.mem_union.mp hm with hm' | hm' <;>
                rcases Finset.mem_union.mp hneg with hneg' | hneg'
              · exact hcons1 m hm' hneg'
              · have h' := Finset.mem_singleton.mp hneg'
                have hml : m = -pick (n + 1) (lits0 \ (pa ∪ (simplify sord cnf).2)) := by omega
                rw [hml] at hm'
                exact hstale hm'
              · have h' := Finset.mem_singleton.mp hm'
                have hml : -m = -pick (n + 1) (lits0 \ (pa ∪ (simplify sord cnf).2)) := by
                  omega
                rw [hml] at hneg'
                exact hstale hneg'
              · have h1' := Finset.mem_singleton.mp hm'
                have h2' := Finset.mem_singleton.mp hneg'
                exact hpne0 (by omega)
            · intro m hm
              rcases Finset.mem_union.mp hm with hm' | hm'
              · exact ⟨fun hc => (hdis1 m hm').1 (determine_literals_remove_subset _ _ hc),
                  fun hc => (hdis1 m hm').2 (determine_literals_remove_subset _ _ hc)⟩
              · rcases Finset.mem_singleton.mp hm' with rfl
                exact ⟨not_mem_lits_remove (Or.inl rfl), not_mem_lits_remove (Or.inr rfl)⟩
        · next nA heq =>
          simp at h

theorem remove_literal_cons (c : Clause) (f : CNF) (l : Int) :
    remove_literal (c :: f) l =
      if l ∈ c then remove_literal f l
      else c.filter (fun x => x ≠ -l) :: remove_literal f l := by
  simp only [remove_literal, remove_clauses_with_literal, shorten_clauses_with_literal,
    List.filter_cons]
  by_cases h : l ∈ c
  · simp [h]
  · simp [h]

theorem filter_ne_comm (c : Clause) (x y : Int) :
    (c.filter (fun m => m ≠ x)).filter (fun m => m ≠ y) =
      (c.filter (fun m => m ≠ y)).filter (fun m => m ≠ x) := by
  rw [List.filter_filter, List.filter_filter]
  apply List.filter_congr
  intro m _
  rw [Bool.and_comm]

theorem mem_filter_ne {c : Clause} {x m : Int} (hm : m ∈ c) (hne : m ≠ x) :
    m ∈ c.filter (fun b => b ≠ x) := by
  apply List.mem_filter.mpr
  exact ⟨hm, by simpa using hne⟩

theorem remove_literal_comm (f : CNF) (a b : Int) (hab : a ≠ -b) :
    remove_literal (remove_literal f a) b = remove_literal (remove_literal f b) a := by
  have hba : b ≠ -a := fun h => hab (by omega)
  induction f with
  | nil => rfl
  | cons c f ih =>
    by_cases hac : a ∈ c <;> by_cases hbc : b ∈ c
    · rw [remove_literal_cons c f a, if_pos hac, remove_literal_cons c f b, if_pos hbc, ih]
    · rw [remove_literal_cons c f a, if_pos hac, remove_literal_cons c f b, if_neg hbc,
        remove_literal_cons (c.filter (fun x => x ≠ -b)) (remove_literal f b) a,
        if_pos (mem_filter_ne hac hab), ih]
    · rw [remove_literal_cons c f a, if_neg hac, remove_literal_cons c f b, if_pos hbc,
        remove_literal_cons (c.filter (fun x => x ≠ -a)) (remove_literal f a) b,
        if_pos (mem_filter_ne hbc hba), ih]
    · rw [remove_literal_cons c f a, if_neg hac, remove_literal_cons c f b, if_neg hbc,
        remove_literal_cons (c.filter (fun x => x ≠ -a)) (remove_literal f a) b,
        if_neg (fun hmem => hbc ((List.mem_filter.mp hmem).1)),
        remove_literal_cons (c.filter (fun x => x ≠ -b)) (remove_literal f b) a,
        if_neg (fun hmem => hac ((List.mem_filter.mp hmem).1)), ih, filter_ne_comm]

theorem foldl_remove_perm {f : CNF} {L1 L2 : List Int} (hperm : L1.Perm L2)
    (hcons : ∀ x ∈ L1, -x ∉ L1) :
    List.foldl remove_literal f L1 = List.foldl remove_literal f L2 := by
  apply hperm.foldl_eq'
  intro x hx y hy z
  exact remove_literal_comm z x y (fun h => hcons y hy (h ▸ hx))

theorem reach_invariant {sord : Finset Int → List Int} (hval : ValidOrd sord) {f : CNF}
    {cnf : CNF} {pa : Finset Int} (h : Reach sord f cnf pa) :
    determine_literals cnf ⊆ determine_literals f ∧
      ∀ m ∈ pa, m ∉ determine_literals cnf ∧ -m ∉ determine_literals cnf := by
  induction h with
  | init => exact ⟨fun _ h => h, fun m hm => absurd hm (Finset.not_mem_empty m)⟩
  | step cnf pa lit h ih =>
    obtain ⟨hlit, hdis⟩ := ih
    constructor
    · exact (determine_literals_remove_subset _ _).trans ((foldl_lits_subset _ _).trans hlit)
    · intro m hm
      rcases Finset.mem_union.mp hm with hm' | hm'
      · have hd := pa1_disjoint hval hdis m hm'
        exact ⟨fun hc => hd.1 (determine_literals_remove_subset _ _ hc),
          fun hc => hd.2 (determine_literals_remove_subset _ _ hc)⟩
      · rcases Finset.mem_singleton.mp hm' with rfl
        exact ⟨not_mem_lits_remove (Or.inl rfl), not_mem_lits_remove (Or.inr rfl)⟩

/-- C1: for every CNF formula `f`, whenever `solve` reports `satisfiable =
true`, the returned assignment (recorded when the formula reduced to zero
clauses) satisfies every clause of the original formula: each clause of `f`
contains at least one literal that is a member of the returned assignment.
The statement holds for every set-iteration order and every sequence of
random draws. -/
theorem C1_solve_sound (pick : Nat → Finset Int → Int) (sord : Finset Int → List Int)
    (f : CNF) (fuel : Nat) (sol : Finset Int) (hval : ValidOrd sord)
    (h : solve pick sord f fuel = some (true, sol)) :
    ∀ c ∈ f, ∃ l ∈ c, l ∈ sol := by
  have hsordm : ∀ s : Finset Int, ∀ l ∈ sord s, l ∈ s := fun s l hl => ((hval s).2 l).mp hl
  unfold solve at h
  split at h
  · next sol' n' heq =>
    simp only [Option.some.injEq, Prod.mk.injEq, true_and] at h
    unfold start at heq
    obtain ⟨_, hsat⟩ := backtrack_sound hsordm _ _ _ _ _ _ heq
    rw [h] at hsat
    exact hsat
  · next n' heq =>
    simp at h
  · next n' heq =>
    simp at h

theorem C1_solve_sound_witness :
    solve pick_const sordDefault [[1, 2], [-1]] 3 = some (true, ({-1, 2} : Finset Int)) ∧
      ∀ c ∈ [[1, 2], [-1]], ∃ l ∈ c, l ∈ ({-1, 2} : Finset Int) :=
  ⟨by decide, C1_solve_sound pick_const sordDefault [[1, 2], [-1]] 3 {-1, 2} sordDefault_valid (by decide)⟩

/-- C2: for every CNF formula `f`, whenever `solve` reports `satisfiable =
false`, no assignment over the Variable Universe of `f` (one polarity chosen
per variable) satisfies all clauses of `f`. -/
theorem C2_solve_complete (pick : Nat → Finset Int → Int) (sord : Finset Int → List Int)
    (f : CNF) (fuel : Nat) (hval : ValidOrd sord)
    (h : solve pick sord f fuel = some (false, ∅)) :
    ∀ a : Finset Int, assignment_over f a → ¬ satisfies a f := by
  have hsordm : ∀ s : Finset Int, ∀ l ∈ sord s, l ∈ s := fun s l hl => ((hval s).2 l).mp hl
  rintro a ⟨hscope, hone⟩ hsat
  have hcons : ∀ l ∈ a, -l ∉ a := by
    intro l hl hnl
    have hv := hscope l hl
    rcases Int.natAbs_eq l with he | he
    · have hv1 : ((l.natAbs : Int)) ∈ a := he ▸ hl
      have hv2 : (-(l.natAbs : Int)) ∈ a := by
        have he2 : -l = -(l.natAbs : Int) := by omega
        rw [← he2]
        exact hnl
      exact (hone _ hv).2 ⟨hv1, hv2⟩
    · have hv2 : (-(l.natAbs : Int)) ∈ a := he ▸ hl
      have hv1 : ((l.natAbs : Int)) ∈ a := by
        have he2 : -l = (l.natAbs : Int) := by omega
        rw [← he2]
        exact hnl
      exact (hone _ hv).2 ⟨hv1, hv2⟩
  have htot : ∀ m ∈ determine_literals f, m ∈ a ∨ -m ∈ a := by
    intro m hm
    have hv : m.natAbs ∈ vars_of f := Finset.mem_image.mpr ⟨m, hm, rfl⟩
    rcases (hone _ hv).1 with h' | h'
    · rcases Int.natAbs_eq m with he | he
      · exact Or.inl (he.symm ▸ h')
      · refine Or.inr ?_
        have he2 : -m = (m.natAbs : Int) := by omega
        rw [he2]
        exact h'
    · rcases Int.natAbs_eq m with he | he
      · refine Or.inr ?_
        have he2 : -m = -(m.natAbs : Int) := by omega
        rw [he2]
        exact h'
      · refine Or.inl ?_
        have he2 : m = -(m.natAbs : Int) := he
        rw [he2]
        exact h'
  unfold solve at h
  split at h
  · next sol' n' heq =>
    simp at h
  · next n' heq =>
    unfold start at heq
    exact backtrack_complete hsordm _ _ _ _ _ (fun _ hx => hx) heq a hcons htot hsat
  · next n' heq =>
    simp at h

theorem C2_solve_complete_witness :
    solve pick_const sordDefault [[1], [-1]] 3 = some (false, ∅) ∧
      assignment_over [[1], [-1]] {1} ∧ ¬ satisfies {1} [[1], [-1]] :=
  ⟨by decide, by decide,
    C2_solve_complete pick_const sordDefault [[1], [-1]] 3 sordDefault_valid (by decide) {1} (by decide)⟩

/-- C3, counterexample: on `[[1, 2], [1, -2]]` the pure literal `1` removes
every clause in the first `simplify` pass, so `solve` succeeds with the
assignment `{1}`; variable `2` belongs to the Variable Universe but occurs in
the assignment in neither polarity, so the assignment is not total. -/
theorem C3_totality_counterexample :
    solve pick_const sordDefault [[1, 2], [1, -2]] 3 = some (true, ({1} : Finset Int)) ∧
      2 ∈ vars_of [[1, 2], [1, -2]] ∧
      (2 : Int) ∉ ({1} : Finset Int) ∧ (-2 : Int) ∉ ({1} : Finset Int) := by
  decide

/-- C3, amended: on a well-formed formula (no literal `0`), whenever `solve`
reports `satisfiable = true` on a run whose random draws land in the candidate
set, the returned assignment never contains a variable in both polarities.
(The original totality claim fails: variables can be missing, see the
counterexample; at-most-one polarity is what the code guarantees.) -/
theorem C3_amended_consistent (pick : Nat → Finset Int → Int)
    (sord : Finset Int → List Int) (f : CNF) (fuel : Nat) (sol : Finset Int)
    (hval : ValidOrd sord) (hpick : ValidPick pick)
    (h0 : (0 : Int) ∉ determine_literals f)
    (h : solve pick sord f fuel = some (true, sol)) :
    ∀ m ∈ sol, -m ∉ sol := by
  unfold solve at h
  split at h
  · next sol' n' heq =>
    simp only [Option.some.injEq, Prod.mk.injEq, true_and] at h
    unfold start at heq
    have hres := backtrack_success_consistent hval hpick h0 _ _ _ _ _ _ (fun _ hx => hx)
      (fun m hm => absurd hm (Finset.not_mem_empty m))
      (fun m hm => absurd hm (Finset.not_mem_empty m)) heq
    rw [h] at hres
    exact hres
  · next n' heq =>
    simp at h
  · next n' heq =>
    simp at h

theorem C3_amended_consistent_witness :
    ((0 : Int) ∉ determine_literals [[1, 2], [-1]]) ∧
      solve pickMin sordDefault [[1, 2], [-1]] 3 = some (true, ({-1, 2} : Finset Int)) ∧
      ∀ m ∈ ({-1, 2} : Finset Int), -m ∉ ({-1, 2} : Finset Int) :=
  ⟨by decide, by decide,
    C3_amended_consistent pickMin sordDefault [[1, 2], [-1]] 3 {-1, 2} sordDefault_valid
      pickMin_valid (by decide) (by decide)⟩

/-- C4: on `f4cnf`, with the realizable draw sequence `pick4` (the top-level
draw picks the stale literal `1` after `-1` was already forced), the negative
branch fails and the code then passes the partial assignment `{-1, 4, 1}` —
containing both `1` and `-1` — to a recursive call: the claimed invariant is
violated.  The second conjunct checks the instrumented run against
`backtrack` itself. -/
theorem C4_inconsistent_call :
    (∃ s ∈ (backtrack_trace pick4 sordDefault (determine_literals f4cnf) 10 0 f4cnf ∅).2,
        (1 : Int) ∈ s ∧ (-1 : Int) ∈ s) ∧
      (backtrack_trace pick4 sordDefault (determine_literals f4cnf) 10 0 f4cnf ∅).1 =
        backtrack pick4 sordDefault (determine_literals f4cnf) 10 0 f4cnf ∅ := by
  decide

/-- C5: on `f4cnf` (Variable Universe of size 4), with the realizable draw
sequence `pick5` that keeps picking the stale literal `1`, a chain of six
nested `backtrack` calls exhausts fuel 5 without reaching either terminal
check: the recursion-depth bound `|Variable Universe|` is exceeded, and the
recursion need not terminate at all. -/
theorem C5_depth_exceeded :
    backtrack pick5 sordDefault (determine_literals f4cnf) 5 0 f4cnf ∅ = (none, 5) ∧
      (vars_of f4cnf).card = 4 := by
  decide

/-- C6: for every formula and nonzero literal `l`, `remove_literal` equals the
drop-then-shorten composite of the spec, and consequently its result contains
no occurrence of `l` and no occurrence of `-l` in any clause. -/
theorem C6_remove_literal_composite (f : CNF) (l : Int) (_h : l ≠ 0) :
    remove_literal f l = remove_literal_spec f l ∧
      (∀ c ∈ remove_literal f l, l ∉ c) ∧ (∀ c ∈ remove_literal f l, -l ∉ c) := by
  refine ⟨rfl, ?_, ?_⟩
  · intro c hc hlc
    exact not_mem_lits_remove (Or.inl rfl) (mem_determine_literals.mpr ⟨c, hc, hlc⟩)
  · intro c hc hlc
    exact not_mem_lits_remove (Or.inr rfl) (mem_determine_literals.mpr ⟨c, hc, hlc⟩)

theorem C6_remove_literal_composite_witness :
    (1 : Int) ≠ 0 ∧
      (remove_literal [[1, 2], [-1, 3], [2, -1]] 1 =
          remove_literal_spec [[1, 2], [-1, 3], [2, -1]] 1 ∧
        (∀ c ∈ remove_literal [[1, 2], [-1, 3], [2, -1]] 1, (1 : Int) ∉ c) ∧
        (∀ c ∈ remove_literal [[1, 2], [-1, 3], [2, -1]] 1, -(1 : Int) ∉ c)) :=
  ⟨by decide, C6_remove_literal_composite [[1, 2], [-1, 3], [2, -1]] 1 (by decide)⟩

/-- C7, counterexample: on `[[1], [-1], [1, 2], [-2, 3]]` the forced set of
one `simplify` pass is `{1, -1, 3}` (conflicting unit clauses plus a pure
literal), and folding `remove_literal` over the two permutations
`[1, -1, 3]` and `[-1, 1, 3]` of that set yields different final formulas. -/
theorem C7_order_counterexample :
    (determine_unit_clauses [[1], [-1], [1, 2], [-2, 3]] ∪
        determine_pure_literals [[1], [-1], [1, 2], [-2, 3]] = ({1, -1, 3} : Finset Int)) ∧
      ([1, -1, 3] : List Int).Perm [-1, 1, 3] ∧
      List.foldl remove_literal [[1], [-1], [1, 2], [-2, 3]] [1, -1, 3] ≠
        List.foldl remove_literal [[1], [-1], [1, 2], [-2, 3]] [-1, 1, 3] := by
  refine ⟨by decide, List.Perm.swap (-1) 1 [3], by decide⟩

/-- C7, amended: folding `remove_literal` over a forced set that contains no
complementary pair (no literal together with its negation) gives the same
final formula for every permutation of the set.  Order-independence fails
exactly when both polarities of a variable are forced at once, as in the
counterexample. -/
theorem C7_order_invariance (f : CNF) (L1 L2 : List Int) (hperm : L1.Perm L2)
    (hcons : ∀ x ∈ L1, -x ∉ L1) :
    List.foldl remove_literal f L1 = List.foldl remove_literal f L2 :=
  foldl_remove_perm hperm hcons

theorem C7_order_invariance_witness :
    ([1, 2] : List Int).Perm [2, 1] ∧ (∀ x ∈ ([1, 2] : List Int), -x ∉ ([1, 2] : List Int)) ∧
      List.foldl remove_literal [[1], [-1, 2]] [1, 2] =
        List.foldl remove_literal [[1], [-1, 2]] [2, 1] :=
  ⟨List.Perm.swap 2 1 [], by decide,
    C7_order_invariance [[1], [-1, 2]] [1, 2] [2, 1] (List.Perm.swap 2 1 []) (by decide)⟩

/-- C8: on `[[1, 2], [-1]]` the unit clause `-1` and the pure literal `2` are
both forced in the first `simplify` pass and reduce the formula to zero
clauses, so on every run (any draw sequence, any set-iteration order, any
positive fuel) `solve` returns `satisfiable = true` with assignment
`{-1, 2}` and no branching is involved. -/
theorem C8_forced_run (pick : Nat → Finset Int → Int) (sord : Finset Int → List Int)
    (fuel : Nat) (hval : ValidOrd sord) :
    solve pick sord [[1, 2], [-1]] (fuel + 1) = some (true, ({-1, 2} : Finset Int)) := by
  have hforced : determine_unit_clauses [[1, 2], [-1]] ∪
      determine_pure_literals [[1, 2], [-1]] = ({-1, 2} : Finset Int) := by decide
  have hperm : (sord ({-1, 2} : Finset Int)).Perm [-1, 2] := by
    rcases hval ({-1, 2} : Finset Int) with ⟨hnd, hmem⟩
    rw [List.perm_ext_iff_of_nodup hnd (by decide)]
    intro a
    rw [hmem a]
    constructor
    · intro ha
      rcases Finset.mem_insert.mp ha with rfl | ha'
      · exact List.mem_cons_self _ _
      · rcases Finset.mem_singleton.mp ha' with rfl
        exact List.mem_cons_of_mem _ (List.mem_cons_self _ _)
    · intro ha
      rcases List.mem_cons.mp ha with rfl | ha'
      · exact Finset.mem_insert_self _ _
      · rcases List.mem_cons.mp ha' with rfl | ha'
        · exact Finset.mem_insert_of_mem (Finset.mem_singleton_self _)
        · exact absurd ha' (List.not_mem_nil a)
  have hcons : ∀ x ∈ sord ({-1, 2} : Finset Int), -x ∉ sord ({-1, 2} : Finset Int) := by
    intro x hx hnx
    rcases hval ({-1, 2} : Finset Int) with ⟨_, hmem⟩
    rw [hmem] at hx hnx
    simp only [Finset.mem_insert, Finset.mem_singleton] at hx hnx
    omega
  have hs1 : (simplify sord [[1, 2], [-1]]).1 = [] := by
    show List.foldl remove_literal [[1, 2], [-1]]
      (sord (determine_unit_clauses [[1, 2], [-1]] ∪
        determine_pure_literals [[1, 2], [-1]])) = []
    rw [hforced, foldl_remove_perm hperm hcons]
    decide
  have hs2 : (simplify sord [[1, 2], [-1]]).2 = ({-1, 2} : Finset Int) := hforced
  have hbt : backtrack pick sord (determine_literals [[1, 2], [-1]]) (fuel + 1) 0
      [[1, 2], [-1]] ∅ = (some (some ({-1, 2} : Finset Int)), 0 + 1) := by
    simp only [backtrack]
    rw [hs1, hs2]
    simp
  unfold solve start
  rw [hbt]

theorem C8_forced_run_witness :
    solve pick_const sordDefault [[1, 2], [-1]] 3 = some (true, ({-1, 2} : Finset Int)) :=
  C8_forced_run pick_const sordDefault 2 sordDefault_valid

/-- C9: a formula with no unit clauses and no pure literals is returned by
`simplify` unchanged, together with an empty forced set. -/
theorem C9_simplify_fixed_point (sord : Finset Int → List Int) (f : CNF)
    (hval : ValidOrd sord)
    (hu : determine_unit_clauses f = ∅) (hp : determine_pure_literals f = ∅) :
    simplify sord f = (f, ∅) := by
  have hemp : determine_unit_clauses f ∪ determine_pure_literals f = ∅ := by
    rw [hu, hp]
    exact Finset.union_empty ∅
  have hnil : sord (determine_unit_clauses f ∪ determine_pure_literals f) = [] := by
    rw [hemp]
    rcases hval (∅ : Finset Int) with ⟨_, hmem⟩
    apply List.eq_nil_iff_forall_not_mem.mpr
    intro x hx
    exact absurd ((hmem x).mp hx) (Finset.not_mem_empty x)
  unfold simplify
  rw [hnil, hemp]
  rfl

theorem C9_simplify_fixed_point_witness :
    (determine_unit_clauses [[1, -1]] = ∅ ∧ determine_pure_literals [[1, -1]] = ∅) ∧
      simplify sordDefault [[1, -1]] = ([[1, -1]], ∅) :=
  ⟨⟨by decide, by decide⟩,
    C9_simplify_fixed_point sordDefault [[1, -1]] sordDefault_valid (by decide) (by decide)⟩

/-- C10: at every reachable Branch step (the simplified formula is nonempty
and has no empty clause), the candidate set `self.literals` minus the updated
partial assignment is nonempty, so `np.random.choice` never receives an empty
collection.  `self.literals` is the set of signed literals of the original
formula, and every literal still occurring in the simplified formula is an
unassigned candidate (in particular a literal whose negation is in the
assignment may remain a candidate). -/
theorem C10_branch_candidates_nonempty (sord : Finset Int → List Int) (f cnf : CNF)
    (pa : Finset Int) (hval : ValidOrd sord) (hr : Reach sord f cnf pa)
    (hne : (simplify sord cnf).1 ≠ []) (hnoe : [] ∉ (simplify sord cnf).1) :
    (determine_literals f \ (pa ∪ (simplify sord cnf).2)).Nonempty := by
  obtain ⟨hlit, hdis⟩ := reach_invariant hval hr
  have hdis1 := pa1_disjoint hval hdis
  have hsub1 : determine_literals (simplify sord cnf).1 ⊆ determine_literals f :=
    (foldl_lits_subset _ _).trans hlit
  rcases List.exists_mem_of_ne_nil _ hne with ⟨c, hc⟩
  have hcne : c ≠ [] := fun he => hnoe (he ▸ hc)
  rcases List.exists_mem_of_ne_nil _ hcne with ⟨m, hmc⟩
  have hml : m ∈ determine_literals (simplify sord cnf).1 :=
    mem_determine_literals.mpr ⟨c, hc, hmc⟩
  exact ⟨m, Finset.mem_sdiff.mpr ⟨hsub1 hml, fun hmp => (hdis1 m hmp).1 hml⟩⟩

theorem C10_branch_candidates_nonempty_witness :
    ((simplify sordDefault [[1, -1]]).1 ≠ [] ∧ [] ∉ (simplify sordDefault [[1, -1]]).1) ∧
      (determine_literals [[1, -1]] \ (∅ ∪ (simplify sordDefault [[1, -1]]).2)).Nonempty :=
  ⟨⟨by decide, by decide⟩,
    C10_branch_candidates_nonempty sordDefault [[1, -1]] [[1, -1]] ∅ sordDefault_valid
      Reach.init (by decide) (by decide)⟩

end Sattools
